import Mathlib

set_option maxHeartbeats 1000000
set_option maxRecDepth 4000

/-!
Verification of the meeting-availability engine
(`_find_available_slots` in `src/agent/tools/schedule_tool.py`).

Timestamps are naive local datetimes, modelled as whole seconds on a
linear clock; a calendar day is 86400 seconds.  `replace` with
`hour=h, minute=0` keeps the seconds component of the timestamp, while
`replace` with `hour=h, minute=0, second=0, microsecond=0` zeroes it;
both variants occur in the source and are modelled separately.
Raw event fields are `Option (Option Nat)`: the outer layer is
presence of a truthy string (absent / falsy strings are `none`), the
inner layer is the result of `datetime.fromisoformat` (`none` when the
string does not parse, in which case the source raises `ValueError`,
modelled as `Except.error`).
-/

/-- Calendar-day index of a timestamp. -/
def dayOf (t : Nat) : Nat := t / 86400

/-- `datetime.hour` of a timestamp. -/
def hourOf (t : Nat) : Nat := t % 86400 / 3600

/-- `t.replace` with `hour=h, minute=0` — the seconds component survives. -/
def replaceHM (t : Nat) (h : Nat) : Nat := dayOf t * 86400 + h * 3600 + t % 60

/-- `t.replace` with `hour=h, minute=0, second=0, microsecond=0`. -/
def replaceHMS (t : Nat) (h : Nat) : Nat := dayOf t * 86400 + h * 3600

/-- A raw calendar event as the engine receives it. -/
structure RawEvent where
  start : Option (Option Nat)
  startDatetime : Option (Option Nat)
  end_ : Option (Option Nat)
  endDatetime : Option (Option Nat)
  allDay : Bool

/-- Python `a or b` on two optional fields (`None`/falsy falls through). -/
def firstSome {α : Type} (a b : Option α) : Option α :=
  match a with
  | some x => some x
  | none => b

/-- `event.get('start') or event.get('startDatetime')`. -/
def startField (e : RawEvent) : Option (Option Nat) := firstSome e.start e.startDatetime

/-- `event.get('end') or event.get('endDatetime')`. -/
def endField (e : RawEvent) : Option (Option Nat) := firstSome e.end_ e.endDatetime

/-- One iteration of the event-to-busy-interval loop: skip when a field is
missing, raise when `fromisoformat` fails, expand all-day events to the
business window of the start's calendar day. -/
def toBusy (hs he : Nat) (e : RawEvent) : Except Unit (Option (Nat × Nat)) :=
  match startField e, endField e with
  | some ps, some pe =>
    match ps with
    | none => Except.error ()
    | some s =>
      match pe with
      | none => Except.error ()
      | some t =>
        if e.allDay then Except.ok (some (replaceHMS s hs, replaceHMS s he))
        else Except.ok (some (s, t))
  | _, _ => Except.ok none

/-- The event normalizer: the first loop of `_find_available_slots`. -/
def normalizeEvents (hs he : Nat) : List RawEvent → Except Unit (List (Nat × Nat))
  | [] => Except.ok []
  | e :: es =>
    match toBusy hs he e with
    | Except.error u => Except.error u
    | Except.ok none => normalizeEvents hs he es
    | Except.ok (some iv) =>
      match normalizeEvents hs he es with
      | Except.error u => Except.error u
      | Except.ok l => Except.ok (iv :: l)

/-- Stable insertion (by interval start) used to model
`busy_intervals.sort` with the start as key. -/
def insertByStart (a : Nat × Nat) : List (Nat × Nat) → List (Nat × Nat)
  | [] => [a]
  | b :: l => if b.1 ≤ a.1 then b :: insertByStart a l else a :: b :: l

/-- Stable sort of the busy intervals by their start. -/
def sortByStart (l : List (Nat × Nat)) : List (Nat × Nat) :=
  l.foldl (fun acc x => insertByStart x acc) []

/-- The merging scan: extend the running interval while the next start is
strictly below the running end, otherwise close it. -/
def mergeInto (running : Nat × Nat) : List (Nat × Nat) → List (Nat × Nat)
  | [] => [running]
  | c :: rest =>
    if c.1 < running.2 then mergeInto (running.1, max running.2 c.2) rest
    else running :: mergeInto c rest

/-- The interval merger: the second stage of `_find_available_slots`. -/
def mergeBusy (l : List (Nat × Nat)) : List (Nat × Nat) :=
  match sortByStart l with
  | [] => []
  | x :: xs => mergeInto x xs

/-- The inner `for busy_start, busy_end in merged_busy` scan: the end of the
first busy interval hit by the candidate starting at `t`, if any. -/
def findBusyJump (t dur : Nat) : List (Nat × Nat) → Option Nat
  | [] => none
  | (bs, be) :: rest =>
    if t < be ∧ t + dur > bs then some be else findBusyJump t dur rest

/-- The cursor adjustment `if test_time.hour < start_hour` of the loop body. -/
def adjCursor (hs : Nat) (t : Nat) : Nat :=
  if hourOf t < hs then replaceHM t hs else t

/-- The 30-minute advance followed by the rollover to the next day's start
hour when the cursor leaves the business window. -/
def stepCursor (hs he : Nat) (t1 : Nat) : Nat :=
  if he ≤ hourOf (t1 + 1800) then replaceHM (t1 + 1800 + 86400) hs else t1 + 1800

/-- One iteration of the slot-generation `while` loop: the slots it emits
and the next cursor value. -/
def loopBody (merged : List (Nat × Nat)) (dur hs he : Nat) (t : Nat) :
    List (Nat × Nat) × Nat :=
  match findBusyJump t dur merged with
  | some be => ([], be)
  | none =>
    (if adjCursor hs t + dur ≤ replaceHM t he
       then [(adjCursor hs t, adjCursor hs t + dur)] else [],
     stepCursor hs he (adjCursor hs t))

/-- Fuel-indexed slot-generation loop; each iteration strictly advances the
cursor, so fuel `searchEnd - t` always suffices (proved below). -/
def genSlotsF (merged : List (Nat × Nat)) (searchEnd dur hs he : Nat) :
    Nat → Nat → List (Nat × Nat)
  | 0, _ => []
  | f + 1, t =>
    if t < searchEnd then
      (loopBody merged dur hs he t).1 ++
        genSlotsF merged searchEnd dur hs he f (loopBody merged dur hs he t).2
    else []

/-- The slot generator: the third stage of `_find_available_slots`. -/
def genSlots (merged : List (Nat × Nat)) (searchEnd dur hs he : Nat) (t : Nat) :
    List (Nat × Nat) :=
  genSlotsF merged searchEnd dur hs he (searchEnd - t) t

/-- `slots_by_day[day]["morning"]`: the day's candidates starting before 14h. -/
def morningOf (slots : List (Nat × Nat)) (d : Nat) : List (Nat × Nat) :=
  slots.filter (fun s => decide (dayOf s.1 = d ∧ hourOf s.1 < 14))

/-- `slots_by_day[day]["afternoon"]`: the day's candidates starting at 14h or later. -/
def afternoonOf (slots : List (Nat × Nat)) (d : Nat) : List (Nat × Nat) :=
  slots.filter (fun s => decide (dayOf s.1 = d ∧ 14 ≤ hourOf s.1))

/-- First-occurrence deduplication of the day keys (dict-key insertion order). -/
def uniqKeys (seen : List Nat) : List Nat → List Nat
  | [] => []
  | x :: xs => if x ∈ seen then uniqKeys seen xs else x :: uniqKeys (x :: seen) xs

/-- Stable insertion for `sorted` on the day keys. -/
def insertNat (a : Nat) : List Nat → List Nat
  | [] => [a]
  | b :: l => if b ≤ a then b :: insertNat a l else a :: b :: l

/-- `sorted` on the day keys. -/
def sortNat (l : List Nat) : List Nat :=
  l.foldl (fun acc x => insertNat x acc) []

/-- `sorted(slots_by_day.keys())`. -/
def sortedDays (slots : List (Nat × Nat)) : List Nat :=
  sortNat (uniqKeys [] (slots.map (fun s => dayOf s.1)))

/-- `if bucket: recommendations.append(bucket[0])` — append the first
element of a day's bucket, when the bucket is non-empty. -/
def pickFirst (recs : List (Nat × Nat)) (bucket : List (Nat × Nat)) : List (Nat × Nat) :=
  match bucket with
  | [] => recs
  | m :: _ => recs ++ [m]

/-- Diversity pass: first morning then first afternoon candidate per day,
capped at 9. -/
def phase1 (slots : List (Nat × Nat)) : List Nat → List (Nat × Nat) → List (Nat × Nat)
  | [], recs => recs
  | d :: ds, recs =>
    if 9 ≤ recs.length then recs
    else if 9 ≤ (pickFirst recs (morningOf slots d)).length then
      pickFirst recs (morningOf slots d)
    else
      phase1 slots ds
        (pickFirst (pickFirst recs (morningOf slots d)) (afternoonOf slots d))

/-- Chronological fill pass: earliest candidates whose start is not among the
starts recorded before the fill began, capped at 9. -/
def phase2 (existing : List Nat) : List (Nat × Nat) → List (Nat × Nat) → List (Nat × Nat)
  | [], recs => recs
  | s :: ss, recs =>
    if 9 ≤ recs.length then recs
    else if s.1 ∈ existing then phase2 existing ss recs
    else phase2 existing ss (recs ++ [s])

/-- The slot diversifier: the fourth stage of `_find_available_slots`. -/
def diversify (slots : List (Nat × Nat)) : List (Nat × Nat) :=
  match slots with
  | [] => []
  | _ :: _ =>
    let recs := phase1 slots (sortedDays slots) []
    (phase2 (recs.map (fun r => r.1)) slots recs).take 9

/-- The event-list part of the schedules bundle (four accepted field names). -/
structure EventsDict where
  personalEvents : Option (List RawEvent)
  personal_events : Option (List RawEvent)
  groupEvents : Option (List RawEvent)
  group_events : Option (List RawEvent)

/-- The schedules bundle: an optional `data` wrapper around the event lists,
with the same keys also probed at top level when the wrapper is absent. -/
structure Bundle where
  data : Option EventsDict
  top : EventsDict

/-- Python `a or b` where `a` is an optional list (empty lists are falsy). -/
def pyOr (x : Option (List RawEvent)) (y : List RawEvent) : List RawEvent :=
  match x with
  | some (e :: es) => e :: es
  | _ => y

/-- `schedules_bundle.get('data', schedules_bundle)`. -/
def actualData (b : Bundle) : EventsDict := b.data.getD b.top

/-- `all_events`: personal events followed by group events, with alias fallback. -/
def allEvents (b : Bundle) : List RawEvent :=
  pyOr (actualData b).personalEvents ((actualData b).personal_events.getD []) ++
    pyOr (actualData b).groupEvents ((actualData b).group_events.getD [])

/-- Busy intervals of a bundle (normalizer applied to all its events). -/
def busyOf (b : Bundle) (hs he : Nat) : Except Unit (List (Nat × Nat)) :=
  normalizeEvents hs he (allEvents b)

/-- The candidate list produced for a bundle (stages 1–3). -/
def candidatesOf (b : Bundle) (searchStart searchEnd : Nat) (durMin hs he : Nat) :
    Except Unit (List (Nat × Nat)) :=
  match busyOf b hs he with
  | Except.error u => Except.error u
  | Except.ok busy =>
    Except.ok (genSlots (mergeBusy busy) searchEnd (durMin * 60) hs he
      (replaceHM searchStart hs))

/-- `_find_available_slots` itself: the full four-stage pipeline. -/
def findAvailableSlots (b : Bundle) (searchStart searchEnd : Nat) (durMin hs he : Nat) :
    Except Unit (List (Nat × Nat)) :=
  match candidatesOf b searchStart searchEnd durMin hs he with
  | Except.error u => Except.error u
  | Except.ok slots => Except.ok (diversify slots)


/-! ### Lemmas about the slot-generation loop -/

theorem le_adjCursor (hs : Nat) (t : Nat) : t ≤ adjCursor hs t := by
  unfold adjCursor replaceHM hourOf dayOf
  split_ifs <;> omega

theorem lt_stepCursor (hs he : Nat) (t1 : Nat) : t1 < stepCursor hs he t1 := by
  unfold stepCursor replaceHM hourOf dayOf
  split_ifs <;> omega

theorem findBusyJump_lt {t dur : Nat} :
    ∀ {l : List (Nat × Nat)} {be : Nat}, findBusyJump t dur l = some be → t < be := by
  intro l
  induction l with
  | nil => intro be h; simp [findBusyJump] at h
  | cons p rest ih =>
    intro be h
    rcases p with ⟨bs, bend⟩
    by_cases hc : t < bend ∧ t + dur > bs
    · rw [findBusyJump, if_pos hc] at h
      cases h
      exact hc.1
    · rw [findBusyJump, if_neg hc] at h
      exact ih h

theorem loopBody_cursor_lt (merged : List (Nat × Nat)) (dur hs he : Nat) (t : Nat) :
    t < (loopBody merged dur hs he t).2 := by
  rcases h : findBusyJump t dur merged with _ | be
  · simp only [loopBody, h]
    calc t ≤ adjCursor hs t := le_adjCursor hs t
    _ < stepCursor hs he (adjCursor hs t) := lt_stepCursor hs he _
  · simp only [loopBody, h]
    exact findBusyJump_lt h

theorem loopBody_emit {merged : List (Nat × Nat)} {dur hs he : Nat} {t : Nat}
    {x : Nat × Nat} (h : x ∈ (loopBody merged dur hs he t).1) :
    t ≤ x.1 ∧ x.1 < (loopBody merged dur hs he t).2 := by
  rcases hj : findBusyJump t dur merged with _ | be
  · simp only [loopBody, hj] at h ⊢
    by_cases hemit : adjCursor hs t + dur ≤ replaceHM t he
    · rw [if_pos hemit] at h
      rcases List.mem_singleton.mp h with rfl
      exact ⟨le_adjCursor hs t, lt_stepCursor hs he _⟩
    · rw [if_neg hemit] at h
      simp at h
  · simp only [loopBody, hj] at h
    simp at h

theorem loopBody_emit_small (merged : List (Nat × Nat)) (dur hs he : Nat) (t : Nat) :
    (loopBody merged dur hs he t).1 = [] ∨
      (loopBody merged dur hs he t).1 = [(adjCursor hs t, adjCursor hs t + dur)] := by
  rcases hj : findBusyJump t dur merged with _ | be
  · simp only [loopBody, hj]
    split_ifs
    · right; rfl
    · left; rfl
  · simp [loopBody, hj]

theorem genSlotsF_fuel (merged : List (Nat × Nat)) (se dur hs he : Nat) :
    ∀ (f1 f2 : Nat) (t : Nat), se - t ≤ f1 → se - t ≤ f2 →
      genSlotsF merged se dur hs he f1 t = genSlotsF merged se dur hs he f2 t := by
  intro f1
  induction f1 with
  | zero =>
    intro f2 t h1 h2
    have hts : ¬ t < se := by omega
    cases f2 with
    | zero => rfl
    | succ g => simp [genSlotsF, hts]
  | succ g1 ih =>
    intro f2 t h1 h2
    cases f2 with
    | zero =>
      have hts : ¬ t < se := by omega
      simp [genSlotsF, hts]
    | succ g2 =>
      by_cases hts : t < se
      · simp only [genSlotsF, if_pos hts]
        have hlt := loopBody_cursor_lt merged dur hs he t
        have ha : se - (loopBody merged dur hs he t).2 ≤ g1 := by omega
        have hb : se - (loopBody merged dur hs he t).2 ≤ g2 := by omega
        rw [ih g2 _ ha hb]
      · simp [genSlotsF, hts]

theorem genSlotsF_eq_genSlots {merged : List (Nat × Nat)} {se dur hs he f : Nat}
    {t : Nat} (h : se - t ≤ f) :
    genSlotsF merged se dur hs he f t = genSlots merged se dur hs he t :=
  genSlotsF_fuel merged se dur hs he f (se - t) t h (Nat.le_refl _)

theorem genSlotsF_start_le {merged : List (Nat × Nat)} {se dur hs he : Nat} :
    ∀ {f : Nat} {t : Nat} {x : Nat × Nat},
      x ∈ genSlotsF merged se dur hs he f t → t ≤ x.1 := by
  intro f
  induction f with
  | zero => intro t x h; simp [genSlotsF] at h
  | succ g ih =>
    intro t x h
    by_cases hts : t < se
    · rw [genSlotsF, if_pos hts] at h
      rcases List.mem_append.mp h with h | h
      · exact (loopBody_emit h).1
      · have h1 := loopBody_cursor_lt merged dur hs he t
        have h2 := ih h
        omega
    · rw [genSlotsF, if_neg hts] at h
      simp at h

theorem genSlotsF_pairwise (merged : List (Nat × Nat)) (se dur hs he : Nat) :
    ∀ (f : Nat) (t : Nat),
      List.Pairwise (fun a b : Nat × Nat => a.1 < b.1)
        (genSlotsF merged se dur hs he f t) := by
  intro f
  induction f with
  | zero => intro t; simp [genSlotsF]
  | succ g ih =>
    intro t
    by_cases hts : t < se
    · rw [genSlotsF, if_pos hts]
      refine List.pairwise_append.mpr ⟨?_, ih _, ?_⟩
      · rcases loopBody_emit_small merged dur hs he t with h | h <;> simp [h]
      · intro x hx y hy
        have h1 := (loopBody_emit hx).2
        have h2 := genSlotsF_start_le hy
        omega
    · rw [genSlotsF, if_neg hts]
      simp

/-! ### Lemmas about sorting and merging busy intervals -/

theorem mem_insertByStart {a x : Nat × Nat} :
    ∀ {l : List (Nat × Nat)}, x ∈ insertByStart a l ↔ x = a ∨ x ∈ l := by
  intro l
  induction l with
  | nil => simp [insertByStart]
  | cons b bs ih =>
    by_cases hc : b.1 ≤ a.1
    · rw [insertByStart, if_pos hc]
      simp only [List.mem_cons, ih]
      tauto
    · rw [insertByStart, if_neg hc]
      simp only [List.mem_cons]

theorem insertByStart_pairwise {a : Nat × Nat} :
    ∀ {l : List (Nat × Nat)},
      List.Pairwise (fun u v : Nat × Nat => u.1 ≤ v.1) l →
      List.Pairwise (fun u v : Nat × Nat => u.1 ≤ v.1) (insertByStart a l) := by
  intro l
  induction l with
  | nil => intro _; simp [insertByStart]
  | cons b bs ih =>
    intro h
    rcases List.pairwise_cons.mp h with ⟨hb, htl⟩
    by_cases hc : b.1 ≤ a.1
    · rw [insertByStart, if_pos hc]
      refine List.pairwise_cons.mpr ⟨?_, ih htl⟩
      intro y hy
      rcases mem_insertByStart.mp hy with rfl | hy
      · exact hc
      · exact hb y hy
    · rw [insertByStart, if_neg hc]
      refine List.pairwise_cons.mpr ⟨?_, h⟩
      intro y hy
      rcases List.mem_cons.mp hy with rfl | hy
      · omega
      · have := hb y hy
        omega

theorem sortByStart_mem_aux {x : Nat × Nat} :
    ∀ (l acc : List (Nat × Nat)),
      x ∈ List.foldl (fun acc y => insertByStart y acc) acc l ↔ x ∈ acc ∨ x ∈ l := by
  intro l
  induction l with
  | nil => intro acc; simp
  | cons b bs ih =>
    intro acc
    simp only [List.foldl_cons, ih, mem_insertByStart, List.mem_cons]
    tauto

theorem mem_sortByStart {x : Nat × Nat} {l : List (Nat × Nat)} :
    x ∈ sortByStart l ↔ x ∈ l := by
  unfold sortByStart
  rw [sortByStart_mem_aux]
  simp

theorem sortByStart_pairwise (l : List (Nat × Nat)) :
    List.Pairwise (fun u v : Nat × Nat => u.1 ≤ v.1) (sortByStart l) := by
  unfold sortByStart
  have : ∀ (m acc : List (Nat × Nat)),
      List.Pairwise (fun u v : Nat × Nat => u.1 ≤ v.1) acc →
      List.Pairwise (fun u v : Nat × Nat => u.1 ≤ v.1)
        (List.foldl (fun acc y => insertByStart y acc) acc m) := by
    intro m
    induction m with
    | nil => intro acc h; simpa using h
    | cons b bs ih =>
      intro acc h
      exact ih _ (insertByStart_pairwise h)
  exact this l [] (by simp)

theorem mergeInto_fst :
    ∀ (cs : List (Nat × Nat)) (r : Nat × Nat), ∃ e tl, mergeInto r cs = (r.1, e) :: tl := by
  intro cs
  induction cs with
  | nil => intro r; exact ⟨r.2, [], rfl⟩
  | cons c rest ih =>
    intro r
    by_cases hc : c.1 < r.2
    · rw [mergeInto, if_pos hc]
      exact ih (r.1, max r.2 c.2)
    · rw [mergeInto, if_neg hc]
      exact ⟨r.2, mergeInto c rest, rfl⟩

theorem mergeInto_chain_gap :
    ∀ (cs : List (Nat × Nat)) (r : Nat × Nat),
      List.Chain' (fun u v : Nat × Nat => u.2 ≤ v.1) (mergeInto r cs) := by
  intro cs
  induction cs with
  | nil => intro r; simp [mergeInto]
  | cons c rest ih =>
    intro r
    by_cases hc : c.1 < r.2
    · rw [mergeInto, if_pos hc]
      exact ih _
    · rw [mergeInto, if_neg hc]
      rcases mergeInto_fst rest c with ⟨e, tl, heq⟩
      rw [heq]
      refine List.chain'_cons.mpr ⟨by omega, ?_⟩
      rw [← heq]
      exact ih _

theorem mergeInto_chain_start :
    ∀ (cs : List (Nat × Nat)) (r : Nat × Nat),
      List.Pairwise (fun u v : Nat × Nat => u.1 ≤ v.1) (r :: cs) →
      List.Chain' (fun u v : Nat × Nat => u.1 ≤ v.1) (mergeInto r cs) := by
  intro cs
  induction cs with
  | nil => intro r _; simp [mergeInto]
  | cons c rest ih =>
    intro r h
    rcases List.pairwise_cons.mp h with ⟨hr, htl⟩
    rcases List.pairwise_cons.mp htl with ⟨hcrest, hrest⟩
    by_cases hc : c.1 < r.2
    · rw [mergeInto, if_pos hc]
      refine ih (r.1, max r.2 c.2) (List.pairwise_cons.mpr ⟨?_, hrest⟩)
      intro y hy
      exact hr y (List.mem_cons_of_mem _ hy)
    · rw [mergeInto, if_neg hc]
      rcases mergeInto_fst rest c with ⟨e, tl, heq⟩
      rw [heq]
      refine List.chain'_cons.mpr ⟨?_, ?_⟩
      · have := hr c (List.mem_cons_self _ _)
        simpa using this
      · rw [← heq]
        exact ih c htl

theorem mergeInto_pos :
    ∀ (cs : List (Nat × Nat)) (r : Nat × Nat),
      (∀ p ∈ cs, p.1 < p.2) → r.1 < r.2 →
      ∀ x ∈ mergeInto r cs, x.1 < x.2 := by
  intro cs
  induction cs with
  | nil =>
    intro r _ hr x hx
    rcases List.mem_singleton.mp hx with rfl
    exact hr
  | cons c rest ih =>
    intro r hcs hr x hx
    by_cases hc : c.1 < r.2
    · rw [mergeInto, if_pos hc] at hx
      refine ih _ (fun p hp => hcs p (List.mem_cons_of_mem _ hp)) ?_ x hx
      have := hcs c (List.mem_cons_self _ _)
      simp only []
      omega
    · rw [mergeInto, if_neg hc] at hx
      rcases List.mem_cons.mp hx with rfl | hx
      · exact hr
      · exact ih c (fun p hp => hcs p (List.mem_cons_of_mem _ hp))
          (hcs c (List.mem_cons_self _ _)) x hx

theorem mergeBusy_chain_gap (l : List (Nat × Nat)) :
    List.Chain' (fun u v : Nat × Nat => u.2 ≤ v.1) (mergeBusy l) := by
  unfold mergeBusy
  rcases h : sortByStart l with _ | ⟨x, xs⟩
  · simp
  · exact mergeInto_chain_gap xs x

theorem mergeBusy_chain_start (l : List (Nat × Nat)) :
    List.Chain' (fun u v : Nat × Nat => u.1 ≤ v.1) (mergeBusy l) := by
  unfold mergeBusy
  rcases h : sortByStart l with _ | ⟨x, xs⟩
  · simp
  · have hp := sortByStart_pairwise l
    rw [h] at hp
    exact mergeInto_chain_start xs x hp

theorem mergeBusy_pos {l : List (Nat × Nat)} (hl : ∀ p ∈ l, p.1 < p.2) :
    ∀ x ∈ mergeBusy l, x.1 < x.2 := by
  unfold mergeBusy
  rcases h : sortByStart l with _ | ⟨x, xs⟩
  · simp
  · have hmem : ∀ p ∈ (x :: xs), p.1 < p.2 := by
      intro p hp
      have hp2 : p ∈ sortByStart l := by rw [h]; exact hp
      exact hl p (mem_sortByStart.mp hp2)
    exact mergeInto_pos xs x (fun p hp => hmem p (List.mem_cons_of_mem _ hp))
      (hmem x (List.mem_cons_self _ _))

/-! ### Lemmas about the diversifier -/

theorem insertNat_perm (a : Nat) : ∀ l : List Nat, List.Perm (insertNat a l) (a :: l) := by
  intro l
  induction l with
  | nil => simp [insertNat]
  | cons b bs ih =>
    by_cases hc : b ≤ a
    · rw [insertNat, if_pos hc]
      exact (ih.cons b).trans (List.Perm.swap a b bs)
    · rw [insertNat, if_neg hc]

theorem sortNat_perm_aux : ∀ (l acc : List Nat),
    List.Perm (List.foldl (fun acc y => insertNat y acc) acc l) (acc ++ l) := by
  intro l
  induction l with
  | nil => intro acc; simp
  | cons x xs ih =>
    intro acc
    refine ((ih (insertNat x acc)).trans ?_)
    refine (((insertNat_perm x acc).append_right xs).trans ?_)
    exact List.perm_middle.symm

theorem sortNat_perm (l : List Nat) : List.Perm (sortNat l) l := by
  unfold sortNat
  simpa using sortNat_perm_aux l []

theorem insertNat_pairwise {a : Nat} :
    ∀ {l : List Nat}, List.Pairwise (· ≤ ·) l →
      List.Pairwise (· ≤ ·) (insertNat a l) := by
  intro l
  induction l with
  | nil => intro _; simp [insertNat]
  | cons b bs ih =>
    intro h
    rcases List.pairwise_cons.mp h with ⟨hb, htl⟩
    by_cases hc : b ≤ a
    · rw [insertNat, if_pos hc]
      refine List.pairwise_cons.mpr ⟨?_, ih htl⟩
      intro y hy
      rcases List.mem_cons.mp ((insertNat_perm a bs).mem_iff.mp hy) with rfl | hy
      · exact hc
      · exact hb y hy
    · rw [insertNat, if_neg hc]
      refine List.pairwise_cons.mpr ⟨?_, h⟩
      intro y hy
      rcases List.mem_cons.mp hy with rfl | hy
      · omega
      · have := hb y hy
        omega

theorem sortNat_pairwise (l : List Nat) : List.Pairwise (· ≤ ·) (sortNat l) := by
  unfold sortNat
  have : ∀ (m acc : List Nat), List.Pairwise (· ≤ ·) acc →
      List.Pairwise (· ≤ ·) (List.foldl (fun acc y => insertNat y acc) acc m) := by
    intro m
    induction m with
    | nil => intro acc h; simpa using h
    | cons b bs ih => intro acc h; exact ih _ (insertNat_pairwise h)
  exact this l [] (by simp)

theorem mem_uniqKeys : ∀ (l seen : List Nat) (x : Nat),
    x ∈ uniqKeys seen l ↔ x ∈ l ∧ x ∉ seen := by
  intro l
  induction l with
  | nil => intro seen x; simp [uniqKeys]
  | cons y ys ih =>
    intro seen x
    by_cases hy : y ∈ seen
    · rw [uniqKeys, if_pos hy, ih]
      constructor
      · rintro ⟨h1, h2⟩
        exact ⟨List.mem_cons_of_mem _ h1, h2⟩
      · rintro ⟨h1, h2⟩
        rcases List.mem_cons.mp h1 with rfl | h1
        · exact absurd hy h2
        · exact ⟨h1, h2⟩
    · rw [uniqKeys, if_neg hy]
      constructor
      · intro h
        rcases List.mem_cons.mp h with rfl | h
        · exact ⟨List.mem_cons_self _ _, hy⟩
        · rcases (ih (y :: seen) x).mp h with ⟨h1, h2⟩
          exact ⟨List.mem_cons_of_mem _ h1, fun hx => h2 (List.mem_cons_of_mem _ hx)⟩
      · rintro ⟨h1, h2⟩
        rcases List.mem_cons.mp h1 with rfl | h1
        · exact List.mem_cons_self _ _
        · by_cases hxy : x = y
          · subst hxy
            exact List.mem_cons_self _ _
          · refine List.mem_cons_of_mem _ ((ih (y :: seen) x).mpr ⟨h1, ?_⟩)
            intro hx
            rcases List.mem_cons.mp hx with h | h
            · exact hxy h
            · exact h2 h

theorem uniqKeys_nodup : ∀ (l seen : List Nat), (uniqKeys seen l).Nodup := by
  intro l
  induction l with
  | nil => intro seen; simp [uniqKeys]
  | cons y ys ih =>
    intro seen
    by_cases hy : y ∈ seen
    · rw [uniqKeys, if_pos hy]
      exact ih seen
    · rw [uniqKeys, if_neg hy]
      refine List.nodup_cons.mpr ⟨?_, ih _⟩
      intro hmem
      have := (mem_uniqKeys _ _ _).mp hmem
      exact this.2 (List.mem_cons_self _ _)

theorem sortedDays_nodup (s : List (Nat × Nat)) : (sortedDays s).Nodup :=
  (sortNat_perm _).nodup_iff.mpr (uniqKeys_nodup _ _)

theorem mem_sortedDays {d : Nat} {s : List (Nat × Nat)} :
    d ∈ sortedDays s ↔ ∃ x ∈ s, dayOf x.1 = d := by
  unfold sortedDays
  rw [(sortNat_perm _).mem_iff, mem_uniqKeys]
  simp

theorem sortedDays_pairwise (s : List (Nat × Nat)) :
    List.Pairwise (· < ·) (sortedDays s) := by
  have h1 := sortNat_pairwise (uniqKeys [] (s.map (fun x => dayOf x.1)))
  have h2 := sortedDays_nodup s
  unfold sortedDays at *
  exact (h1.and h2).imp (fun h => lt_of_le_of_ne h.1 h.2)

theorem mem_morningOf {s : List (Nat × Nat)} {d : Nat} {x : Nat × Nat} :
    x ∈ morningOf s d ↔ x ∈ s ∧ dayOf x.1 = d ∧ hourOf x.1 < 14 := by
  simp [morningOf, List.mem_filter]

theorem mem_afternoonOf {s : List (Nat × Nat)} {d : Nat} {x : Nat × Nat} :
    x ∈ afternoonOf s d ↔ x ∈ s ∧ dayOf x.1 = d ∧ 14 ≤ hourOf x.1 := by
  simp [afternoonOf, List.mem_filter]

theorem phase1_nodup (s : List (Nat × Nat)) :
    ∀ (days : List Nat) (recs : List (Nat × Nat)), days.Nodup → recs.Nodup →
      (∀ x ∈ recs, dayOf x.1 ∉ days) → (phase1 s days recs).Nodup := by
  intro days
  induction days with
  | nil => intro recs _ h _; exact h
  | cons d ds ih =>
    intro recs hdays hrecs hday
    rcases List.nodup_cons.mp hdays with ⟨hd_not, hds⟩
    by_cases hcap : 9 ≤ recs.length
    · rw [phase1, if_pos hcap]
      exact hrecs
    · rw [phase1, if_neg hcap]
      rcases hm : morningOf s d with _ | ⟨m, ms⟩ <;>
        rcases ha : afternoonOf s d with _ | ⟨a, as1⟩
    
      · simp only [hm, ha, pickFirst]
        rw [if_neg hcap]
        exact ih recs hds hrecs
          (fun x hx hmem => hday x hx (List.mem_cons_of_mem _ hmem))
      · simp only [hm, ha, pickFirst]
        rw [if_neg hcap]
        have hax := (mem_afternoonOf.mp (ha ▸ List.mem_cons_self a as1)).2.1
        refine ih (recs ++ [a]) hds ?_ ?_
        · refine List.nodup_append.mpr ⟨hrecs, List.nodup_singleton a, ?_⟩
          intro x hx hy
          rcases List.mem_singleton.mp hy with rfl
          exact hday x hx (List.mem_cons.mpr (Or.inl hax))
        · intro x hx
          rcases List.mem_append.mp hx with hx2 | hx2
          · exact fun hmem => hday x hx2 (List.mem_cons_of_mem _ hmem)
          · rcases List.mem_singleton.mp hx2 with rfl
            rw [hax]
            exact hd_not
      · simp only [hm, ha, pickFirst]
        have hmx := (mem_morningOf.mp (hm ▸ List.mem_cons_self m ms)).2.1
        have hnodup1 : (recs ++ [m]).Nodup := by
          refine List.nodup_append.mpr ⟨hrecs, List.nodup_singleton m, ?_⟩
          intro x hx hy
          rcases List.mem_singleton.mp hy with rfl
          exact hday x hx (List.mem_cons.mpr (Or.inl hmx))
        split_ifs with hcap1
        · exact hnodup1
        · refine ih (recs ++ [m]) hds hnodup1 ?_
          intro x hx
          rcases List.mem_append.mp hx with hx2 | hx2
          · exact fun hmem => hday x hx2 (List.mem_cons_of_mem _ hmem)
          · rcases List.mem_singleton.mp hx2 with rfl
            rw [hmx]
            exact hd_not
      · simp only [hm, ha, pickFirst]
        have hmx := (mem_morningOf.mp (hm ▸ List.mem_cons_self m ms)).2.1
        have hax := (mem_afternoonOf.mp (ha ▸ List.mem_cons_self a as1)).2.1
        have hmh := (mem_morningOf.mp (hm ▸ List.mem_cons_self m ms)).2.2
        have hah := (mem_afternoonOf.mp (ha ▸ List.mem_cons_self a as1)).2.2
        have hma : m ≠ a := by
          intro hma
          rw [hma] at hmh
          omega
        have hnodup1 : (recs ++ [m]).Nodup := by
          refine List.nodup_append.mpr ⟨hrecs, List.nodup_singleton m, ?_⟩
          intro x hx hy
          rcases List.mem_singleton.mp hy with rfl
          exact hday x hx (List.mem_cons.mpr (Or.inl hmx))
        have hnodup2 : ((recs ++ [m]) ++ [a]).Nodup := by
          refine List.nodup_append.mpr ⟨hnodup1, List.nodup_singleton a, ?_⟩
          intro x hx hy
          rcases List.mem_singleton.mp hy with rfl
          rcases List.mem_append.mp hx with hx2 | hx2
          · exact hday x hx2 (List.mem_cons.mpr (Or.inl hax))
          · rcases List.mem_singleton.mp hx2 with h
            exact hma h.symm
        split_ifs with hcap1
        · exact hnodup1
        · refine ih ((recs ++ [m]) ++ [a]) hds hnodup2 ?_
          intro x hx
          rcases List.mem_append.mp hx with hx2 | hx2
          · rcases List.mem_append.mp hx2 with hx3 | hx3
            · exact fun hmem => hday x hx3 (List.mem_cons_of_mem _ hmem)
            · rcases List.mem_singleton.mp hx3 with rfl
              rw [hmx]
              exact hd_not
          · rcases List.mem_singleton.mp hx2 with rfl
            rw [hax]
            exact hd_not

theorem phase2_stop {ex : List Nat} {recs : List (Nat × Nat)}
    (h : 9 ≤ recs.length) : ∀ l, phase2 ex l recs = recs := by
  intro l
  cases l with
  | nil => rfl
  | cons s ss => rw [phase2, if_pos h]

theorem phase2_nodup (ex : List Nat) :
    ∀ (l recs : List (Nat × Nat)),
      List.Pairwise (fun u v : Nat × Nat => u.1 < v.1) l → recs.Nodup →
      (∀ x ∈ l, x.1 ∈ ex ∨ x ∉ recs) → (phase2 ex l recs).Nodup := by
  intro l
  induction l with
  | nil => intro recs _ h _; exact h
  | cons s ss ih =>
    intro recs hp hrecs hinv
    rcases List.pairwise_cons.mp hp with ⟨hs, hss⟩
    by_cases hcap : 9 ≤ recs.length
    · rw [phase2, if_pos hcap]
      exact hrecs
    · rw [phase2, if_neg hcap]
      by_cases hex : s.1 ∈ ex
      · rw [if_pos hex]
        exact ih recs hss hrecs
          (fun x hx => hinv x (List.mem_cons_of_mem _ hx))
      · rw [if_neg hex]
        have hs_not : s ∉ recs := by
          rcases hinv s (List.mem_cons_self _ _) with h | h
          · exact absurd h hex
          · exact h
        refine ih (recs ++ [s]) hss ?_ ?_
        · refine List.nodup_append.mpr ⟨hrecs, List.nodup_singleton s, ?_⟩
          intro x hx hy
          rcases List.mem_singleton.mp hy with rfl
          exact hs_not hx
        · intro x hx
          rcases hinv x (List.mem_cons_of_mem _ hx) with h | h
          · exact Or.inl h
          · right
            intro hmem
            rcases List.mem_append.mp hmem with hmem | hmem
            · exact h hmem
            · rcases List.mem_singleton.mp hmem with rfl
              have := hs x hx
              omega

theorem diversify_length_le (s : List (Nat × Nat)) : (diversify s).length ≤ 9 := by
  cases s with
  | nil => simp [diversify]
  | cons hd tl =>
    simp only [diversify]
    rw [List.length_take]
    omega

theorem diversify_nodup {s : List (Nat × Nat)}
    (hp : List.Pairwise (fun u v : Nat × Nat => u.1 < v.1) s) :
    (diversify s).Nodup := by
  cases s with
  | nil => simp [diversify]
  | cons hd tl =>
    simp only [diversify]
    have h1 : (phase1 (hd :: tl) (sortedDays (hd :: tl)) []).Nodup :=
      phase1_nodup _ _ [] (sortedDays_nodup _) List.nodup_nil (by simp)
    have h2 : (phase2 ((phase1 (hd :: tl) (sortedDays (hd :: tl)) []).map
        (fun r => r.1)) (hd :: tl) (phase1 (hd :: tl) (sortedDays (hd :: tl)) [])).Nodup := by
      refine phase2_nodup _ _ _ hp h1 ?_
      intro x hx
      by_cases hmem : x ∈ phase1 (hd :: tl) (sortedDays (hd :: tl)) []
      · exact Or.inl (List.mem_map_of_mem _ hmem)
      · exact Or.inr hmem
    exact h2.sublist (List.take_sublist _ _)

/-! ### Step equations and emptiness lemmas -/

theorem genSlotsF_cons (merged : List (Nat × Nat)) (se dur hs he g t : Nat)
    (hts : t < se) :
    genSlotsF merged se dur hs he (g + 1) t =
      (loopBody merged dur hs he t).1 ++
        genSlotsF merged se dur hs he g (loopBody merged dur hs he t).2 := by
  rw [genSlotsF, if_pos hts]

theorem loopBody_fst_empty (merged : List (Nat × Nat)) (dur hs he t : Nat)
    (hem : ¬ adjCursor hs t + dur ≤ replaceHM t he) :
    (loopBody merged dur hs he t).1 = [] := by
  rcases hj : findBusyJump t dur merged with _ | be <;> simp [loopBody, hj, hem]

theorem replaceHM_lt_adj_add {hs he dur : Nat} (t : Nat)
    (hdur : (he - hs) * 3600 < dur) : replaceHM t he < adjCursor hs t + dur := by
  have h60 : t % 86400 % 60 = t % 60 := Nat.mod_mod_of_dvd t (by norm_num)
  unfold adjCursor replaceHM hourOf dayOf
  split_ifs with h <;> omega

theorem genSlotsF_empty_of_dur (merged : List (Nat × Nat)) (se dur hs he : Nat)
    (hdur : (he - hs) * 3600 < dur) :
    ∀ (f t : Nat), genSlotsF merged se dur hs he f t = [] := by
  intro f
  induction f with
  | zero => intro t; rfl
  | succ g ih =>
    intro t
    by_cases hts : t < se
    · rw [genSlotsF_cons _ _ _ _ _ _ _ hts,
        loopBody_fst_empty _ _ _ _ _
          (by have := replaceHM_lt_adj_add t hdur; omega),
        ih]
      rfl
    · rw [genSlotsF, if_neg hts]

theorem phase1_step_both {s : List (Nat × Nat)} {d : Nat} {ds : List Nat}
    {recs : List (Nat × Nat)} {m a : Nat × Nat} {ms as1 : List (Nat × Nat)}
    (hm : morningOf s d = m :: ms) (ha : afternoonOf s d = a :: as1)
    (hlen : recs.length ≤ 7) :
    phase1 s (d :: ds) recs = phase1 s ds (recs ++ [m] ++ [a]) := by
  rw [phase1, if_neg (by omega)]
  simp only [hm, ha, pickFirst]
  rw [if_neg (by simp only [List.length_append, List.length_singleton]; omega)]

theorem phase1_step_last {s : List (Nat × Nat)} {d : Nat} {ds : List Nat}
    {recs : List (Nat × Nat)} {m : Nat × Nat} {ms : List (Nat × Nat)}
    (hm : morningOf s d = m :: ms) (hlen : recs.length = 8) :
    phase1 s (d :: ds) recs = recs ++ [m] := by
  rw [phase1, if_neg (by omega)]
  simp only [hm, pickFirst]
  rw [if_pos (by simp only [List.length_append, List.length_singleton]; omega)]

/-! ### Claim theorems -/

/-- C9: the slot-generation scan terminates for every input: every loop
iteration strictly increases the cursor (a busy jump lands strictly later by
the intersection precondition, otherwise the fixed 30-minute step and the
rollover advance it), so any fuel of at least `searchEnd - cursor` computes
the loop to completion and the cursor reaches the search-window end. -/
theorem c9_generation_scan_terminates :
    (∀ (merged : List (Nat × Nat)) (dur hs he t : Nat),
        t < (loopBody merged dur hs he t).2) ∧
    (∀ (merged : List (Nat × Nat)) (se dur hs he f t : Nat), se - t ≤ f →
        genSlotsF merged se dur hs he f t = genSlots merged se dur hs he t) :=
  ⟨fun merged dur hs he t => loopBody_cursor_lt merged dur hs he t,
   fun _ _ _ _ _ _ _ h => genSlotsF_eq_genSlots h⟩

theorem c9_generation_scan_terminates_witness :
    32400 < (loopBody [] 3600 9 22 32400).2 ∧
      genSlotsF [] 86400 3600 9 22 86400 32400 = genSlots [] 86400 3600 9 22 32400 :=
  ⟨c9_generation_scan_terminates.1 [] 3600 9 22 32400,
   c9_generation_scan_terminates.2 [] 86400 3600 9 22 86400 32400 (by decide)⟩

/-- C6: for every bundle, search window and duration, a successful result of
`_find_available_slots` holds at most 9 recommended slots. -/
theorem c6_recommendations_capped_at_nine
    (b : Bundle) (ss se dm hs he : Nat) (r : List (Nat × Nat))
    (h : findAvailableSlots b ss se dm hs he = Except.ok r) : r.length ≤ 9 := by
  unfold findAvailableSlots at h
  rcases hc : candidatesOf b ss se dm hs he with u | slots
  · rw [hc] at h
    simp at h
  · rw [hc] at h
    simp only [Except.ok.injEq] at h
    rw [← h]
    exact diversify_length_le slots

theorem c6_recommendations_capped_at_nine_witness :
    findAvailableSlots ⟨none, ⟨none, none, none, none⟩⟩ 0 86400 60 9 22 =
      Except.ok [(32400, 36000), (50400, 54000), (34200, 37800), (36000, 39600),
        (37800, 41400), (39600, 43200), (41400, 45000), (43200, 46800), (45000, 48600)] ∧
    ([(32400, 36000), (50400, 54000), (34200, 37800), (36000, 39600),
        (37800, 41400), (39600, 43200), (41400, 45000), (43200, 46800),
        (45000, 48600)] : List (Nat × Nat)).length ≤ 9 :=
  ⟨by rfl,
   c6_recommendations_capped_at_nine ⟨none, ⟨none, none, none, none⟩⟩ 0 86400 60 9 22 _
     (by rfl)⟩

/-- C7: when the requested duration exceeds the business-window span, the
generator emits no candidate for any day and the engine returns the empty
recommendation list — a normal empty result, not an error. -/
theorem c7_duration_exceeding_window_yields_empty :
    (∀ (merged : List (Nat × Nat)) (se dur hs he f t : Nat),
        (he - hs) * 3600 < dur → genSlotsF merged se dur hs he f t = []) ∧
    (∀ (b : Bundle) (ss se dm hs he : Nat) (r : List (Nat × Nat)),
        (he - hs) * 60 < dm →
        findAvailableSlots b ss se dm hs he = Except.ok r → r = []) := by
  constructor
  · intro merged se dur hs he f t h
    exact genSlotsF_empty_of_dur merged se dur hs he h f t
  · intro b ss se dm hs he r hdm h
    unfold findAvailableSlots candidatesOf at h
    rcases hb : busyOf b hs he with u | busy
    · rw [hb] at h
      exact absurd h (by simp)
    · rw [hb] at h
      have hdur : (he - hs) * 3600 < dm * 60 := by omega
      have hgen : genSlots (mergeBusy busy) se (dm * 60) hs he (replaceHM ss hs) = [] := by
        unfold genSlots
        exact genSlotsF_empty_of_dur _ _ _ _ _ hdur _ _
      replace h : Except.ok (diversify (genSlots (mergeBusy busy) se (dm * 60) hs he
          (replaceHM ss hs))) = (Except.ok r : Except Unit (List (Nat × Nat))) := h
      rw [hgen] at h
      simp only [Except.ok.injEq] at h
      rw [← h]
      rfl

theorem c7_duration_exceeding_window_yields_empty_witness :
    genSlotsF [] 86400 54000 9 22 86400 32400 = [] ∧
      ([] : List (Nat × Nat)) = [] :=
  ⟨c7_duration_exceeding_window_yields_empty.1 [] 86400 54000 9 22 86400 32400 (by decide),
   c7_duration_exceeding_window_yields_empty.2 ⟨none, ⟨none, none, none, none⟩⟩
     0 86400 900 9 22 [] (by decide) (by rfl)⟩

/-- C3 (amended): for every successfully normalized event list, the merged
busy set has `a.end ≤ b.start` for all adjacent pairs and is sorted
ascending by start; and provided every normalized busy interval satisfies
`start < end`, every merged interval satisfies `start < end` as well.
(The unconditional `start < end` part of the original claim fails: see the
counterexample with an event whose end precedes its start.) -/
theorem c3_merged_busy_invariants
    (es : List RawEvent) (hs he : Nat) (l : List (Nat × Nat))
    (_h : normalizeEvents hs he es = Except.ok l) :
    List.Chain' (fun a b : Nat × Nat => a.2 ≤ b.1) (mergeBusy l) ∧
    List.Chain' (fun a b : Nat × Nat => a.1 ≤ b.1) (mergeBusy l) ∧
    ((∀ p ∈ l, p.1 < p.2) → ∀ x ∈ mergeBusy l, x.1 < x.2) :=
  ⟨mergeBusy_chain_gap l, mergeBusy_chain_start l, fun hl => mergeBusy_pos hl⟩

theorem c3_merged_busy_invariants_counterexample :
    normalizeEvents 9 22 [⟨some (some 36000), none, some (some 32400), none, false⟩] =
      Except.ok [(36000, 32400)] ∧
    mergeBusy [(36000, 32400)] = [(36000, 32400)] ∧ ¬ (36000 < 32400) :=
  ⟨rfl, rfl, by decide⟩

theorem c3_merged_busy_invariants_witness :
    normalizeEvents 9 22 [⟨some (some 32400), none, some (some 36000), none, false⟩] =
      Except.ok [(32400, 36000)] ∧
    (List.Chain' (fun a b : Nat × Nat => a.2 ≤ b.1) (mergeBusy [(32400, 36000)]) ∧
     List.Chain' (fun a b : Nat × Nat => a.1 ≤ b.1) (mergeBusy [(32400, 36000)]) ∧
     ((∀ p ∈ [((32400 : Nat), (36000 : Nat))], p.1 < p.2) →
       ∀ x ∈ mergeBusy [(32400, 36000)], x.1 < x.2)) :=
  ⟨rfl, c3_merged_busy_invariants
    [⟨some (some 32400), none, some (some 36000), none, false⟩] 9 22 _ rfl⟩

/-- C4: the merger coalesces a later interval into the running one exactly
when its start is strictly below the running end (taking the max of the
ends) and keeps touching intervals separate; in particular 9:00–10:00 with
9:30–11:00 merge into 9:00–11:00, while 9:00–10:00 with 10:00–11:00 stay
two entries. -/
theorem c4_merge_policy :
    (∀ s1 e1 s2 e2 : Nat, s1 ≤ s2 →
        mergeBusy [(s1, e1), (s2, e2)] =
          if s2 < e1 then [(s1, max e1 e2)] else [(s1, e1), (s2, e2)]) ∧
    mergeBusy [(32400, 36000), (34200, 39600)] = [(32400, 39600)] ∧
    mergeBusy [(32400, 36000), (36000, 39600)] = [(32400, 36000), (36000, 39600)] := by
  refine ⟨?_, by rfl, by rfl⟩
  intro s1 e1 s2 e2 hle
  have hsort : sortByStart [(s1, e1), (s2, e2)] = [(s1, e1), (s2, e2)] := by
    unfold sortByStart
    simp only [List.foldl_cons, List.foldl_nil, insertByStart]
    rw [if_pos hle]
  unfold mergeBusy
  rw [hsort]
  show mergeInto (s1, e1) [(s2, e2)] =
    if s2 < e1 then [(s1, max e1 e2)] else [(s1, e1), (s2, e2)]
  by_cases hc : s2 < e1
  · rw [if_pos hc]
    show (if ((s2, e2) : Nat × Nat).1 < ((s1, e1) : Nat × Nat).2 then
        mergeInto (s1, max e1 e2) [] else (s1, e1) :: mergeInto (s2, e2) []) = _
    rw [if_pos hc]
    rfl
  · rw [if_neg hc]
    show (if ((s2, e2) : Nat × Nat).1 < ((s1, e1) : Nat × Nat).2 then
        mergeInto (s1, max e1 e2) [] else (s1, e1) :: mergeInto (s2, e2) []) = _
    rw [if_neg hc]
    rfl

theorem c4_merge_policy_witness :
    (32400 : Nat) ≤ 34200 ∧
    mergeBusy [(32400, 36000), (34200, 39600)] =
      (if 34200 < 36000 then [((32400 : Nat), max 36000 39600)]
       else [(32400, 36000), (34200, 39600)]) :=
  ⟨by decide, c4_merge_policy.1 32400 36000 34200 39600 (by decide)⟩

/-- C5 (amended): an all-day event with a present, parsable start *and* a
present, parsable end is normalized to exactly the business window of the
start's calendar day, so it never blocks time outside the configured
window; with a missing end field the record is skipped entirely (see the
counterexample), which the original claim did not allow for. -/
theorem c5_allday_expansion
    (hs he : Nat) (e : RawEvent) (s t : Nat)
    (hall : e.allDay = true)
    (hstart : startField e = some (some s))
    (hend : endField e = some (some t)) :
    normalizeEvents hs he [e] =
      Except.ok [(dayOf s * 86400 + hs * 3600, dayOf s * 86400 + he * 3600)] := by
  unfold normalizeEvents toBusy
  rw [hstart, hend, hall]
  simp [replaceHMS, normalizeEvents]

theorem c5_allday_expansion_counterexample :
    normalizeEvents 9 22 [⟨some (some 8683200), none, none, none, true⟩] =
      Except.ok [] ∧
    (Except.ok [] : Except Unit (List (Nat × Nat))) ≠
      Except.ok [(8672400, 8719200)] :=
  ⟨rfl, by simp⟩

theorem c5_allday_expansion_witness :
    (⟨some (some 8683200), none, some (some 8690400), none, true⟩ : RawEvent).allDay = true ∧
    startField ⟨some (some 8683200), none, some (some 8690400), none, true⟩ =
      some (some 8683200) ∧
    endField ⟨some (some 8683200), none, some (some 8690400), none, true⟩ =
      some (some 8690400) ∧
    normalizeEvents 9 22 [⟨some (some 8683200), none, some (some 8690400), none, true⟩] =
      Except.ok [(8672400, 8719200)] := by
  refine ⟨rfl, rfl, rfl, ?_⟩
  have h := c5_allday_expansion 9 22
    ⟨some (some 8683200), none, some (some 8690400), none, true⟩ 8683200 8690400 rfl rfl rfl
  rw [h]
  rfl

/-- C2 (amended): an event whose start or end field is missing (absent or
falsy) under both accepted aliases is silently dropped and the computation
proceeds with the remaining events; an event carrying a present but
unparsable timestamp, however, aborts the whole invocation with an error
(see the counterexample), contrary to the original claim. -/
theorem c2_missing_fields_skipped
    (hs he : Nat) (es1 es2 : List RawEvent) (e : RawEvent)
    (h : startField e = none ∨ endField e = none) :
    normalizeEvents hs he (es1 ++ e :: es2) = normalizeEvents hs he (es1 ++ es2) := by
  have htb : toBusy hs he e = Except.ok none := by
    unfold toBusy
    rcases h with h | h
    · rw [h]
    · rcases hsf : startField e with _ | ps
      · rfl
      · rw [h]
  induction es1 with
  | nil => simp only [List.nil_append, normalizeEvents, htb]
  | cons x xs ih =>
    show (match toBusy hs he x with
      | Except.error u => Except.error u
      | Except.ok none => normalizeEvents hs he (xs ++ e :: es2)
      | Except.ok (some iv) =>
        match normalizeEvents hs he (xs ++ e :: es2) with
        | Except.error u => Except.error u
        | Except.ok l => Except.ok (iv :: l)) =
      normalizeEvents hs he (x :: (xs ++ es2))
    rw [ih]
    rfl

theorem c2_missing_fields_skipped_counterexample :
    findAvailableSlots ⟨none, ⟨some [⟨some none, none, some (some 36000), none, false⟩],
      none, none, none⟩⟩ 0 86400 60 9 22 = Except.error () := rfl

theorem c2_missing_fields_skipped_witness :
    (startField ⟨none, none, some (some 36000), none, false⟩ = none ∨
      endField ⟨none, none, some (some 36000), none, false⟩ = none) ∧
    normalizeEvents 9 22 ([] ++ ⟨none, none, some (some 36000), none, false⟩ ::
        [⟨some (some 32400), none, some (some 36000), none, false⟩]) =
      normalizeEvents 9 22 ([] ++ [⟨some (some 32400), none, some (some 36000), none, false⟩]) :=
  ⟨Or.inl rfl,
   c2_missing_fields_skipped 9 22 []
     [⟨some (some 32400), none, some (some 36000), none, false⟩]
     ⟨none, none, some (some 36000), none, false⟩ (Or.inl rfl)⟩

/-- C10: a bundle without a `data` wrapper is probed at top level; a missing
personal or group list (under either alias) resolves to the empty list; and
a bundle with no resolvable event lists at all behaves exactly like the
empty calendar and never produces an error. -/
theorem c10_missing_bundle_parts :
    (∀ t : EventsDict, actualData ⟨none, t⟩ = t) ∧
    (∀ d : EventsDict, d.personalEvents = none → d.personal_events = none →
      pyOr d.personalEvents (d.personal_events.getD []) = []) ∧
    (∀ d : EventsDict, d.groupEvents = none → d.group_events = none →
      pyOr d.groupEvents (d.group_events.getD []) = []) ∧
    (∀ b : Bundle, allEvents b = [] → ∀ ss se dm hs he : Nat,
      findAvailableSlots b ss se dm hs he =
        findAvailableSlots ⟨none, ⟨none, none, none, none⟩⟩ ss se dm hs he ∧
      ∃ r, findAvailableSlots b ss se dm hs he = Except.ok r) := by
  refine ⟨fun t => rfl, ?_, ?_, ?_⟩
  · intro d h1 h2
    simp [pyOr, h1, h2]
  · intro d h1 h2
    simp [pyOr, h1, h2]
  · intro b hall ss se dm hs he
    have heq : findAvailableSlots b ss se dm hs he =
        findAvailableSlots ⟨none, ⟨none, none, none, none⟩⟩ ss se dm hs he := by
      unfold findAvailableSlots candidatesOf busyOf
      rw [hall]
      rfl
    refine ⟨heq, ?_⟩
    rw [heq]
    exact ⟨_, rfl⟩

theorem c10_missing_bundle_parts_witness :
    allEvents ⟨none, ⟨none, some [], none, none⟩⟩ = [] ∧
    (findAvailableSlots ⟨none, ⟨none, some [], none, none⟩⟩ 0 86400 60 9 22 =
      findAvailableSlots ⟨none, ⟨none, none, none, none⟩⟩ 0 86400 60 9 22 ∧
     ∃ r, findAvailableSlots ⟨none, ⟨none, some [], none, none⟩⟩ 0 86400 60 9 22 =
       Except.ok r) :=
  ⟨rfl, c10_missing_bundle_parts.2.2.2 ⟨none, ⟨none, some [], none, none⟩⟩ rfl 0 86400 60 9 22⟩

/-- C1 (code bug): the generator can emit a candidate that overlaps a merged
busy interval.  With a busy interval running past midnight into the next
day (21:00 on day 0 until 03:00 on day 1) and another at 09:00–10:00 on
day 1, the cursor jumps to 03:00, is pushed back to the business-window
start 09:00 without re-testing the busy set, and the engine emits — and even
recommends — the occupied slot 09:00–10:00 of day 1 (start second 118800),
which intersects the merged busy interval (118800, 122400) under the
claim's own intersection test. -/
theorem c1_candidate_overlaps_merged_busy :
    ((busyOf ⟨some ⟨some [⟨some (some 75600), none, some (some 97200), none, false⟩,
        ⟨some (some 118800), none, some (some 122400), none, false⟩], none, none, none⟩,
      ⟨none, none, none, none⟩⟩ 9 22).toOption.getD []) =
      [(75600, 97200), (118800, 122400)] ∧
    mergeBusy [(75600, 97200), (118800, 122400)] = [(75600, 97200), (118800, 122400)] ∧
    (118800, 122400) ∈
      ((candidatesOf ⟨some ⟨some [⟨some (some 75600), none, some (some 97200), none, false⟩,
          ⟨some (some 118800), none, some (some 122400), none, false⟩], none, none, none⟩,
        ⟨none, none, none, none⟩⟩ 0 172800 60 9 22).toOption.getD []) ∧
    (118800 < 122400 ∧ 118800 + 3600 > 118800) ∧
    (118800, 122400) ∈
      ((findAvailableSlots ⟨some ⟨some [⟨some (some 75600), none, some (some 97200), none, false⟩,
          ⟨some (some 118800), none, some (some 122400), none, false⟩], none, none, none⟩,
        ⟨none, none, none, none⟩⟩ 0 172800 60 9 22).toOption.getD []) := by
  refine ⟨by rfl, by rfl, by decide, by decide, by decide⟩

/-- C8 (amended): the diversifier's output never contains a duplicate slot
and is capped at 9; and whenever the candidate list spans at least five
days and every day holding a candidate has both a morning and an afternoon
candidate, the output is exactly the per-day first-morning/first-afternoon
selection (no chronological fill), has exactly 9 slots, and every day
represented in the output except the latest one contributes both a morning
and an afternoon slot.  (The original claim fails because the cap of 9 cuts
the fifth day's afternoon pick: see the counterexample.) -/

theorem c8_diversifier_guarantees
    (b : Bundle) (ss se dm hs he : Nat) (r cs : List (Nat × Nat))
    (hr : findAvailableSlots b ss se dm hs he = Except.ok r)
    (hcs : candidatesOf b ss se dm hs he = Except.ok cs) :
    r.Nodup ∧ r.length ≤ 9 ∧
    ((∀ d ∈ sortedDays cs, morningOf cs d ≠ [] ∧ afternoonOf cs d ≠ []) →
      5 ≤ (sortedDays cs).length →
      r = phase1 cs (sortedDays cs) [] ∧ r.length = 9 ∧
      ∀ d, (∃ x ∈ r, dayOf x.1 = d) →
        (∃ y, (∃ x ∈ r, dayOf x.1 = y) ∧ d < y) →
        (∃ x ∈ r, dayOf x.1 = d ∧ hourOf x.1 < 14) ∧
        (∃ x ∈ r, dayOf x.1 = d ∧ 14 ≤ hourOf x.1)) := by
  have hrd : r = diversify cs := by
    unfold findAvailableSlots at hr
    rw [hcs] at hr
    replace hr : Except.ok (diversify cs) =
        (Except.ok r : Except Unit (List (Nat × Nat))) := hr
    simp only [Except.ok.injEq] at hr
    exact hr.symm
  have hpw : List.Pairwise (fun u v : Nat × Nat => u.1 < v.1) cs := by
    unfold candidatesOf at hcs
    rcases hb : busyOf b hs he with u | busy
    · rw [hb] at hcs
      exact absurd hcs (by simp)
    · rw [hb] at hcs
      replace hcs : Except.ok (genSlots (mergeBusy busy) se (dm * 60) hs he
          (replaceHM ss hs)) = (Except.ok cs : Except Unit (List (Nat × Nat))) := hcs
      simp only [Except.ok.injEq] at hcs
      rw [← hcs]
      exact genSlotsF_pairwise _ _ _ _ _ _ _
  subst hrd
  refine ⟨diversify_nodup hpw, diversify_length_le cs, ?_⟩
  intro hboth hlen5
  rcases cs with _ | ⟨hd, tl⟩
  · simp [sortedDays, sortNat, uniqKeys] at hlen5
  rcases hsd : sortedDays (hd :: tl) with _ | ⟨d1, _ | ⟨d2, _ | ⟨d3, _ | ⟨d4, _ | ⟨d5, ds⟩⟩⟩⟩⟩ <;>
    rw [hsd] at hlen5 <;> try simp at hlen5
  -- bucket heads for the first five days
  have hb1 := hboth d1 (by rw [hsd]; simp)
  have hb2 := hboth d2 (by rw [hsd]; simp)
  have hb3 := hboth d3 (by rw [hsd]; simp)
  have hb4 := hboth d4 (by rw [hsd]; simp)
  have hb5 := hboth d5 (by rw [hsd]; simp)
  rcases hm1 : morningOf (hd :: tl) d1 with _ | ⟨m1, ms1⟩
  · exact absurd hm1 hb1.1
  rcases ha1 : afternoonOf (hd :: tl) d1 with _ | ⟨a1, as1⟩
  · exact absurd ha1 hb1.2
  rcases hm2 : morningOf (hd :: tl) d2 with _ | ⟨m2, ms2⟩
  · exact absurd hm2 hb2.1
  rcases ha2 : afternoonOf (hd :: tl) d2 with _ | ⟨a2, as2⟩
  · exact absurd ha2 hb2.2
  rcases hm3 : morningOf (hd :: tl) d3 with _ | ⟨m3, ms3⟩
  · exact absurd hm3 hb3.1
  rcases ha3 : afternoonOf (hd :: tl) d3 with _ | ⟨a3, as3⟩
  · exact absurd ha3 hb3.2
  rcases hm4 : morningOf (hd :: tl) d4 with _ | ⟨m4, ms4⟩
  · exact absurd hm4 hb4.1
  rcases ha4 : afternoonOf (hd :: tl) d4 with _ | ⟨a4, as4⟩
  · exact absurd ha4 hb4.2
  rcases hm5 : morningOf (hd :: tl) d5 with _ | ⟨m5, ms5⟩
  · exact absurd hm5 hb5.1
  -- facts about the picked slots
  have hm1f := mem_morningOf.mp (hm1 ▸ List.mem_cons_self m1 ms1)
  have ha1f := mem_afternoonOf.mp (ha1 ▸ List.mem_cons_self a1 as1)
  have hm2f := mem_morningOf.mp (hm2 ▸ List.mem_cons_self m2 ms2)
  have ha2f := mem_afternoonOf.mp (ha2 ▸ List.mem_cons_self a2 as2)
  have hm3f := mem_morningOf.mp (hm3 ▸ List.mem_cons_self m3 ms3)
  have ha3f := mem_afternoonOf.mp (ha3 ▸ List.mem_cons_self a3 as3)
  have hm4f := mem_morningOf.mp (hm4 ▸ List.mem_cons_self m4 ms4)
  have ha4f := mem_afternoonOf.mp (ha4 ▸ List.mem_cons_self a4 as4)
  have hm5f := mem_morningOf.mp (hm5 ▸ List.mem_cons_self m5 ms5)
  -- phase 1 fills exactly the nine slots
  have hplist : phase1 (hd :: tl) (sortedDays (hd :: tl)) [] =
      [m1, a1, m2, a2, m3, a3, m4, a4, m5] := by
    rw [hsd, phase1_step_both hm1 ha1 (by simp),
      phase1_step_both hm2 ha2 (by simp),
      phase1_step_both hm3 ha3 (by simp),
      phase1_step_both hm4 ha4 (by simp),
      phase1_step_last hm5 (by simp)]
    simp
  have hdiv : diversify (hd :: tl) = [m1, a1, m2, a2, m3, a3, m4, a4, m5] := by
    simp only [diversify]
    rw [hplist, phase2_stop (by simp)]
    rfl
  rw [hdiv]
  refine ⟨by rw [← hsd]; exact hplist.symm, by simp, ?_⟩
  -- ordering of the five days
  have hp := sortedDays_pairwise (hd :: tl)
  rw [hsd] at hp
  rcases List.pairwise_cons.mp hp with ⟨hp1, hp⟩
  rcases List.pairwise_cons.mp hp with ⟨hp2, hp⟩
  rcases List.pairwise_cons.mp hp with ⟨hp3, hp⟩
  rcases List.pairwise_cons.mp hp with ⟨hp4, _⟩
  have h15 : d1 < d5 := hp1 d5 (by simp)
  have h25 : d2 < d5 := hp2 d5 (by simp)
  have h35 : d3 < d5 := hp3 d5 (by simp)
  have h45 : d4 < d5 := hp4 d5 (by simp)
  have hrepL : ∀ z ∈ [m1, a1, m2, a2, m3, a3, m4, a4, m5],
      dayOf z.1 = d1 ∨ dayOf z.1 = d2 ∨ dayOf z.1 = d3 ∨ dayOf z.1 = d4 ∨
        dayOf z.1 = d5 := by
    intro z hz
    simp only [List.mem_cons, List.not_mem_nil, or_false] at hz
    rcases hz with rfl | rfl | rfl | rfl | rfl | rfl | rfl | rfl | rfl
    · exact Or.inl hm1f.2.1
    · exact Or.inl ha1f.2.1
    · exact Or.inr (Or.inl hm2f.2.1)
    · exact Or.inr (Or.inl ha2f.2.1)
    · exact Or.inr (Or.inr (Or.inl hm3f.2.1))
    · exact Or.inr (Or.inr (Or.inl ha3f.2.1))
    · exact Or.inr (Or.inr (Or.inr (Or.inl hm4f.2.1)))
    · exact Or.inr (Or.inr (Or.inr (Or.inl ha4f.2.1)))
    · exact Or.inr (Or.inr (Or.inr (Or.inr hm5f.2.1)))
  rintro d ⟨x, hx, hxd⟩ ⟨y, ⟨x2, hx2, hx2d⟩, hdy⟩
  have hy_le : y ≤ d5 := by
    rcases hrepL x2 hx2 with h | h | h | h | h <;> rw [hx2d] at h <;> omega
  have hd_cases : d = d1 ∨ d = d2 ∨ d = d3 ∨ d = d4 ∨ d = d5 := by
    rcases hrepL x hx with h | h | h | h | h <;> rw [hxd] at h <;> tauto
  rcases hd_cases with rfl | rfl | rfl | rfl | rfl
  · exact ⟨⟨m1, by simp, hm1f.2.1, hm1f.2.2⟩, ⟨a1, by simp, ha1f.2.1, ha1f.2.2⟩⟩
  · exact ⟨⟨m2, by simp, hm2f.2.1, hm2f.2.2⟩, ⟨a2, by simp, ha2f.2.1, ha2f.2.2⟩⟩
  · exact ⟨⟨m3, by simp, hm3f.2.1, hm3f.2.2⟩, ⟨a3, by simp, ha3f.2.1, ha3f.2.2⟩⟩
  · exact ⟨⟨m4, by simp, hm4f.2.1, hm4f.2.2⟩, ⟨a4, by simp, ha4f.2.1, ha4f.2.2⟩⟩
  · omega

theorem c8_diversifier_guarantees_counterexample :
    findAvailableSlots ⟨none, ⟨none, none, none, none⟩⟩ 0 432000 60 9 22 =
      Except.ok [(32400, 36000), (50400, 54000), (118800, 122400), (136800, 140400),
        (205200, 208800), (223200, 226800), (291600, 295200), (309600, 313200),
        (378000, 381600)] ∧
    9 ≤ ((candidatesOf ⟨none, ⟨none, none, none, none⟩⟩ 0 432000 60 9 22).toOption.getD
      []).length ∧
    (sortedDays ((candidatesOf ⟨none, ⟨none, none, none, none⟩⟩ 0 432000 60 9
      22).toOption.getD [])).length = 5 ∧
    dayOf 378000 = 4 ∧ hourOf 378000 < 14 ∧
    (4 * 86400 + 50400, 4 * 86400 + 54000) ∈
      ((candidatesOf ⟨none, ⟨none, none, none, none⟩⟩ 0 432000 60 9 22).toOption.getD []) ∧
    (∀ x ∈ [((32400 : Nat), (36000 : Nat)), (50400, 54000), (118800, 122400),
        (136800, 140400), (205200, 208800), (223200, 226800), (291600, 295200),
        (309600, 313200), (378000, 381600)],
      ¬ (dayOf x.1 = 4 ∧ 14 ≤ hourOf x.1)) := by
  refine ⟨by rfl, by decide, by decide, by rfl, by decide, by decide, by decide⟩

theorem c8_diversifier_guarantees_witness :
    findAvailableSlots ⟨none, ⟨none, none, none, none⟩⟩ 0 432000 60 9 22 =
      Except.ok [(32400, 36000), (50400, 54000), (118800, 122400), (136800, 140400),
        (205200, 208800), (223200, 226800), (291600, 295200), (309600, 313200),
        (378000, 381600)] ∧
    candidatesOf ⟨none, ⟨none, none, none, none⟩⟩ 0 432000 60 9 22 =
      Except.ok (genSlots [] 432000 3600 9 22 32400) ∧
    (([(32400, 36000), (50400, 54000), (118800, 122400), (136800, 140400),
        (205200, 208800), (223200, 226800), (291600, 295200), (309600, 313200),
        (378000, 381600)] : List (Nat × Nat)).Nodup ∧
     ([(32400, 36000), (50400, 54000), (118800, 122400), (136800, 140400),
        (205200, 208800), (223200, 226800), (291600, 295200), (309600, 313200),
        (378000, 381600)] : List (Nat × Nat)).length ≤ 9 ∧
     ((∀ d ∈ sortedDays (genSlots [] 432000 3600 9 22 32400),
        morningOf (genSlots [] 432000 3600 9 22 32400) d ≠ [] ∧
        afternoonOf (genSlots [] 432000 3600 9 22 32400) d ≠ []) →
      5 ≤ (sortedDays (genSlots [] 432000 3600 9 22 32400)).length →
      ([(32400, 36000), (50400, 54000), (118800, 122400), (136800, 140400),
        (205200, 208800), (223200, 226800), (291600, 295200), (309600, 313200),
        (378000, 381600)] : List (Nat × Nat)) =
          phase1 (genSlots [] 432000 3600 9 22 32400)
            (sortedDays (genSlots [] 432000 3600 9 22 32400)) [] ∧
      ([(32400, 36000), (50400, 54000), (118800, 122400), (136800, 140400),
        (205200, 208800), (223200, 226800), (291600, 295200), (309600, 313200),
        (378000, 381600)] : List (Nat × Nat)).length = 9 ∧
      ∀ d, (∃ x ∈ ([(32400, 36000), (50400, 54000), (118800, 122400), (136800, 140400),
            (205200, 208800), (223200, 226800), (291600, 295200), (309600, 313200),
            (378000, 381600)] : List (Nat × Nat)), dayOf x.1 = d) →
        (∃ y, (∃ x ∈ ([(32400, 36000), (50400, 54000), (118800, 122400), (136800, 140400),
            (205200, 208800), (223200, 226800), (291600, 295200), (309600, 313200),
            (378000, 381600)] : List (Nat × Nat)), dayOf x.1 = y) ∧ d < y) →
        (∃ x ∈ ([(32400, 36000), (50400, 54000), (118800, 122400), (136800, 140400),
            (205200, 208800), (223200, 226800), (291600, 295200), (309600, 313200),
            (378000, 381600)] : List (Nat × Nat)), dayOf x.1 = d ∧ hourOf x.1 < 14) ∧
        (∃ x ∈ ([(32400, 36000), (50400, 54000), (118800, 122400), (136800, 140400),
            (205200, 208800), (223200, 226800), (291600, 295200), (309600, 313200),
            (378000, 381600)] : List (Nat × Nat)), dayOf x.1 = d ∧ 14 ≤ hourOf x.1))) :=
  ⟨rfl, rfl,
   c8_diversifier_guarantees ⟨none, ⟨none, none, none, none⟩⟩ 0 432000 60 9 22
     [(32400, 36000), (50400, 54000), (118800, 122400), (136800, 140400),
      (205200, 208800), (223200, 226800), (291600, 295200), (309600, 313200),
      (378000, 381600)]
     (genSlots [] 432000 3600 9 22 32400) rfl rfl⟩
